import Mathlib

/-!
Verification of the cook-rag query-serving pipeline against its sources.

Shallow embedding of the four core components of the repository:
`rag_modules/retrieval_optimization.py` (hybrid RRF search),
`rag_modules/cache_manager.py` (LRU/TTL response cache),
`rag_modules/session_manager.py` (conversation store) and
`rag_modules/data_preparation.py` (parent-document resolution).

Modelling conventions:
* Python `dict`s are insertion-ordered association lists (`dictGet`/`dictSet`),
  matching CPython's ordered-dict semantics.
* Python `sorted(xs, key=..., reverse=True)` is the stable descending
  insertion sort `sortDesc`.
* Python `float` scores are embedded as exact rationals `ℚ`.
* `hash(s)` on a string is modelled by the string itself: within one process
  CPython's string hash is a fixed function, injective up to collisions,
  and the code only uses it as a dictionary key.
* Wall-clock times are `Nat` parameters passed to each operation.
-/

namespace CookRag

/-- Python `d.get(key)` on an insertion-ordered dictionary, modelled as an
association list (earliest binding wins; `dictSet` keeps bindings unique). -/
def dictGet {α β : Type} [DecidableEq α] : List (α × β) → α → Option β
  | [], _ => none
  | (k, v) :: rest, key => if k = key then some v else dictGet rest key

/-- Python `d[key] = v`: if the key is present its value is replaced in place
(keeping its position in insertion order), otherwise the binding is appended
at the end, exactly like a CPython 3.7+ `dict`. -/
def dictSet {α β : Type} [DecidableEq α] : List (α × β) → α → β → List (α × β)
  | [], key, v => [(key, v)]
  | (k, w) :: rest, key, v =>
    if k = key then (k, v) :: rest else (k, w) :: dictSet rest key v

/-- Insert one element into a list that is already sorted by descending second
component, placing it before the first element whose key is not larger; this is
the insertion step of the stable descending sort modelling Python's
`sorted(..., key=lambda x: x[1], reverse=True)`. -/
def insertDesc {α β : Type} [LinearOrder β] (x : α × β) :
    List (α × β) → List (α × β)
  | [] => [x]
  | y :: ys => if y.2 ≤ x.2 then x :: y :: ys else y :: insertDesc x ys

/-- Python's `sorted(pairs, key=lambda x: x[1], reverse=True)`: a stable sort,
descending on the second component; elements with equal keys keep their
original relative order. -/
def sortDesc {α β : Type} [LinearOrder β] : List (α × β) → List (α × β)
  | [] => []
  | x :: xs => insertDesc x (sortDesc xs)

theorem dictGet_dictSet_self {α β : Type} [DecidableEq α]
    (d : List (α × β)) (k : α) (v : β) : dictGet (dictSet d k v) k = some v := by
  induction d with
  | nil => simp [dictGet, dictSet]
  | cons p rest ih =>
    obtain ⟨a, b⟩ := p
    by_cases h : a = k
    · simp [dictGet, dictSet, h]
    · simp [dictGet, dictSet, h, ih]

theorem dictGet_dictSet_ne {α β : Type} [DecidableEq α]
    (d : List (α × β)) (k k' : α) (v : β) (h : k ≠ k') :
    dictGet (dictSet d k v) k' = dictGet d k' := by
  induction d with
  | nil => simp [dictGet, dictSet, h]
  | cons p rest ih =>
    obtain ⟨a, b⟩ := p
    by_cases ha : a = k
    · subst ha
      simp [dictGet, dictSet, h]
    · simp [dictGet, dictSet, ha, ih]

theorem dictSet_keys {α β : Type} [DecidableEq α]
    (d : List (α × β)) (k : α) (v : β) :
    (dictSet d k v).map Prod.fst =
      if k ∈ d.map Prod.fst then d.map Prod.fst else d.map Prod.fst ++ [k] := by
  induction d with
  | nil => simp [dictSet]
  | cons p rest ih =>
    obtain ⟨a, b⟩ := p
    by_cases ha : a = k
    · subst ha
      simp [dictSet]
    · have hne : ¬ k = a := fun h => ha h.symm
      by_cases hk : k ∈ rest.map Prod.fst
      · simp [dictSet, ha, ih, hk, hne]
      · simp [dictSet, ha, ih, hk, hne]

theorem filter_insertDesc {α β : Type} [LinearOrder β]
    (x : α × β) (l : List (α × β)) (s : β) :
    (insertDesc x l).filter (fun p => p.2 = s) =
      (if x.2 = s then [x] else []) ++ l.filter (fun p => p.2 = s) := by
  induction l with
  | nil =>
    by_cases hx : x.2 = s <;> simp [insertDesc, List.filter, hx]
  | cons y ys ih =>
    by_cases hcmp : y.2 ≤ x.2
    · have hstep : insertDesc x (y :: ys) = x :: y :: ys := by
        simp [insertDesc, hcmp]
      rw [hstep]
      by_cases hx : x.2 = s <;> by_cases hy : y.2 = s <;>
        simp [List.filter, hx, hy]
    · have hstep : insertDesc x (y :: ys) = y :: insertDesc x ys := by
        simp [insertDesc, hcmp]
      rw [hstep]
      have hlt : x.2 < y.2 := lt_of_not_le hcmp
      by_cases hx : x.2 = s
      · have hy : ¬ y.2 = s := by
          intro h
          rw [hx, h] at hlt
          exact lt_irrefl s hlt
        simp [List.filter, hx, hy, ih]
      · by_cases hy : y.2 = s <;> simp [List.filter, hx, hy, ih]

theorem sortDesc_filter_eq {α β : Type} [LinearOrder β]
    (l : List (α × β)) (s : β) :
    (sortDesc l).filter (fun p => p.2 = s) = l.filter (fun p => p.2 = s) := by
  induction l with
  | nil => rfl
  | cons x xs ih =>
    by_cases hx : x.2 = s <;>
      simp [sortDesc, filter_insertDesc, List.filter, hx, ih]

theorem insertDesc_perm {α β : Type} [LinearOrder β]
    (x : α × β) (l : List (α × β)) : List.Perm (insertDesc x l) (x :: l) := by
  induction l with
  | nil => simp [insertDesc]
  | cons y ys ih =>
    by_cases hcmp : y.2 ≤ x.2
    · simp [insertDesc, hcmp]
    · have h1 : List.Perm (y :: insertDesc x ys) (y :: x :: ys) := List.Perm.cons y ih
      have h2 : List.Perm (y :: x :: ys) (x :: y :: ys) := List.Perm.swap x y ys
      simpa [insertDesc, hcmp] using h1.trans h2

theorem sortDesc_perm {α β : Type} [LinearOrder β]
    (l : List (α × β)) : List.Perm (sortDesc l) l := by
  induction l with
  | nil => simp [sortDesc]
  | cons x xs ih =>
    exact (insertDesc_perm x (sortDesc xs)).trans (List.Perm.cons x ih)

/-- A metadata value: the repository stores strings (category, difficulty,
parent_id, ...) and, after reranking, the float `rrf_score`, embedded as `ℚ`. -/
inductive MetaVal : Type
  | str (s : String)
  | num (q : ℚ)
deriving DecidableEq, Repr

/-- A langchain `Document`: `page_content` plus a metadata dictionary
(`rag_modules` uses it both for parent documents and for chunks). -/
structure Document : Type where
  page_content : String
  metadata : List (String × MetaVal)
deriving DecidableEq, Repr

/-- Sum of the RRF contributions that one result list gives to content `c`:
the Python loop `for rank, doc in enumerate(docs)` adds `1.0 / (k + rank + 1)`
each time `hash(doc.page_content)` equals the key of `c`; `rank` here is the
0-based `enumerate` index of the first element of `docs`. -/
def rrfSum (k : ℚ) (rank : Nat) (docs : List Document) (c : String) : ℚ :=
  match docs with
  | [] => 0
  | d :: rest =>
    (if d.page_content = c then 1 / (k + rank + 1) else 0) +
      rrfSum k (rank + 1) rest c

/-- One scoring loop of `RetrievalOptimizationModule._rrf_rerank`
(`retrieval_optimization.py` lines 144-159): for each document, keyed by
`hash(doc.page_content)` (modelled by the content string), record the document
object and add `1.0 / (k + rank + 1)` to its accumulated score. -/
def rrfPass (k : ℚ) (docs : List Document) (rank : Nat)
    (scores : List (String × ℚ)) (objs : List (String × Document)) :
    List (String × ℚ) × List (String × Document) :=
  match docs with
  | [] => (scores, objs)
  | doc :: rest =>
    let docId := doc.page_content
    let objs1 := dictSet objs docId doc
    let rrfScore : ℚ := 1 / (k + rank + 1)
    let scores1 := dictSet scores docId ((dictGet scores docId).getD 0 + rrfScore)
    rrfPass k rest (rank + 1) scores1 objs1

/-- The `(doc_scores, doc_obj)` state of `_rrf_rerank` after both scoring
loops: the vector list is scanned first, the BM25 list second, both with a
fresh 0-based `enumerate`. -/
def rrfState (k : ℚ) (vector_docs bm25_docs : List Document) :
    List (String × ℚ) × List (String × Document) :=
  let p1 := rrfPass k vector_docs 0 [] []
  rrfPass k bm25_docs 0 p1.1 p1.2

/-- `doc.metadata['rrf_score'] = final_score` on a value copy of the document
(the in-place nature of this write is modelled separately by the heap-level
embedding `rrfRerankRef`). -/
def setRrfScore (doc : Document) (score : ℚ) : Document :=
  { doc with metadata := dictSet doc.metadata "rrf_score" (MetaVal.num score) }

/-- `RetrievalOptimizationModule._rrf_rerank` (value level): score both lists,
sort `doc_scores.items()` by score descending (Python's stable `sorted` with
`reverse=True`), then emit each document whose id is in `doc_obj`, with its
`rrf_score` metadata set to its fused score. -/
def rrf_rerank (k : ℚ) (vector_docs bm25_docs : List Document) : List Document :=
  let st := rrfState k vector_docs bm25_docs
  let sorted_docs := sortDesc st.1
  sorted_docs.filterMap (fun kv =>
    (dictGet st.2 kv.1).map (fun doc => setRrfScore doc kv.2))

/-- The exception classes distinguished by `hybrid_search`'s handlers. -/
inductive PyError : Type
  | attrError
  | typeError
  | otherError
deriving DecidableEq, Repr

/-- `RetrievalOptimizationModule.hybrid_search` (`retrieval_optimization.py`
lines 46-86). The three external calls are modelled by their outcomes:
`vectorCall` is `self.vectorstore.similarity_search(query, k=5)`,
`bm25PublicCall` is `self.bm25_retriever.get_relevant_documents(query)` and
`bm25PrivateCall` is the fallback `_get_relevant_documents(query,
run_manager=None)` run inside the `except AttributeError` handler.
Control flow from the source: any vector exception is caught and the function
returns `[]`; a `TypeError` from the BM25 public call returns `[]`; an
`AttributeError` triggers the private fallback whose own exceptions propagate;
any other BM25 exception propagates; if both result lists are empty the result
is `[]`; otherwise the RRF reranking (k = 60) truncated to `top_k`. -/
def hybrid_search (vectorCall : Except PyError (List Document))
    (bm25PublicCall : Except PyError (List Document))
    (bm25PrivateCall : Except PyError (List Document))
    (top_k : Nat) : Except PyError (List Document) :=
  match vectorCall with
  | .error _ => .ok []
  | .ok vector_docs =>
    let bm25Step : Except PyError (Option (List Document)) :=
      match bm25PublicCall with
      | .ok docs => .ok (some docs)
      | .error .attrError =>
        (match bm25PrivateCall with
         | .ok docs => .ok (some docs)
         | .error e => .error e)
      | .error .typeError => .ok none
      | .error e => .error e
    match bm25Step with
    | .error e => .error e
    | .ok none => .ok []
    | .ok (some bm25_docs) =>
      if vector_docs.isEmpty && bm25_docs.isEmpty then .ok []
      else .ok ((rrf_rerank 60 vector_docs bm25_docs).take top_k)

theorem rrfSum_not_mem (k : ℚ) (rank : Nat) (docs : List Document) (c : String)
    (h : c ∉ docs.map Document.page_content) : rrfSum k rank docs c = 0 := by
  induction docs generalizing rank with
  | nil => rfl
  | cons d rest ih =>
    have hd : ¬ d.page_content = c := by
      intro he
      exact h (by simp [he])
    have hrest : c ∉ rest.map Document.page_content := by
      intro he
      exact h (by simp [he])
    simp [rrfSum, hd, ih _ hrest]

theorem rrfSum_append (k : ℚ) (rank : Nat) (l1 l2 : List Document) (c : String) :
    rrfSum k rank (l1 ++ l2) c = rrfSum k rank l1 c + rrfSum k (rank + l1.length) l2 c := by
  induction l1 generalizing rank with
  | nil => simp [rrfSum]
  | cons d rest ih =>
    have hstep : rrfSum k rank ((d :: rest) ++ l2) c =
        (if d.page_content = c then 1 / (k + rank + 1) else 0) +
          rrfSum k (rank + 1) (rest ++ l2) c := rfl
    have hstep2 : rrfSum k rank (d :: rest) c =
        (if d.page_content = c then 1 / (k + rank + 1) else 0) +
          rrfSum k (rank + 1) rest c := rfl
    rw [hstep, ih (rank + 1), hstep2]
    have harith : rank + 1 + rest.length = rank + (d :: rest).length := by
      rw [List.length_cons]
      omega
    rw [harith]
    ring

/-- The score a decomposed list contributes to a content `c` occurring exactly
once, at 0-based index `l1.length`, hence 1-based rank `l1.length + 1`. -/
theorem rrfSum_single (k : ℚ) (l1 l2 : List Document) (d : Document) (c : String)
    (hd : d.page_content = c) (hout : c ∉ (l1 ++ l2).map Document.page_content) :
    rrfSum k 0 (l1 ++ d :: l2) c = 1 / (k + (l1.length : ℚ) + 1) := by
  have h1 : c ∉ l1.map Document.page_content := by
    intro he
    exact hout (by simp [List.map_append]; exact Or.inl (by simpa using he))
  have h2 : c ∉ l2.map Document.page_content := by
    intro he
    exact hout (by simp [List.map_append]; exact Or.inr (by simpa using he))
  rw [rrfSum_append, rrfSum_not_mem k 0 l1 c h1]
  simp only [rrfSum, hd, if_pos, zero_add]
  rw [rrfSum_not_mem k (l1.length + 1) l2 c h2]
  ring

theorem rrfPass_scores_get (k : ℚ) (docs : List Document) (rank : Nat)
    (scores : List (String × ℚ)) (objs : List (String × Document)) (c : String)
    (hmem : c ∈ docs.map Document.page_content ∨ (dictGet scores c).isSome) :
    dictGet (rrfPass k docs rank scores objs).1 c =
      some ((dictGet scores c).getD 0 + rrfSum k rank docs c) := by
  induction docs generalizing rank scores objs with
  | nil =>
    rcases hmem with h | h
    · simp at h
    · obtain ⟨v, hv⟩ := Option.isSome_iff_exists.mp h
      simp [rrfPass, rrfSum, hv]
  | cons d rest ih =>
    by_cases hd : d.page_content = c
    · have hself : dictGet (dictSet scores d.page_content
          ((dictGet scores d.page_content).getD 0 + 1 / (k + rank + 1))) c =
          some ((dictGet scores c).getD 0 + 1 / (k + rank + 1)) := by
        rw [hd] at *
        exact dictGet_dictSet_self scores c _
      have hmem2 : c ∈ rest.map Document.page_content ∨
          (dictGet (dictSet scores d.page_content
            ((dictGet scores d.page_content).getD 0 + 1 / (k + rank + 1))) c).isSome := by
        right
        rw [hself]
        rfl
      rw [rrfPass]
      rw [ih (rank + 1) _ _ hmem2, hself]
      simp only [rrfSum, hd, if_pos, Option.getD_some]
      ring_nf
    · have hne : dictGet (dictSet scores d.page_content
          ((dictGet scores d.page_content).getD 0 + 1 / (k + rank + 1))) c =
          dictGet scores c :=
        dictGet_dictSet_ne scores d.page_content c _ hd
      have hmem2 : c ∈ rest.map Document.page_content ∨
          (dictGet (dictSet scores d.page_content
            ((dictGet scores d.page_content).getD 0 + 1 / (k + rank + 1))) c).isSome := by
        rcases hmem with h | h
        · left
          rcases List.mem_map.mp h with ⟨e, he, hec⟩
          rcases List.mem_cons.mp he with rfl | hrest
          · exact absurd hec hd
          · exact List.mem_map.mpr ⟨e, hrest, hec⟩
        · right
          rw [hne]
          exact h
      rw [rrfPass]
      rw [ih (rank + 1) _ _ hmem2, hne]
      simp only [rrfSum, hd, if_neg, if_false]
      ring_nf

theorem rrfPass_scores_skip (k : ℚ) (docs : List Document) (rank : Nat)
    (scores : List (String × ℚ)) (objs : List (String × Document)) (c : String)
    (h : c ∉ docs.map Document.page_content) :
    dictGet (rrfPass k docs rank scores objs).1 c = dictGet scores c := by
  induction docs generalizing rank scores objs with
  | nil => rfl
  | cons d rest ih =>
    have hd : ¬ d.page_content = c := by
      intro he
      exact h (by simp [he])
    have hrest : c ∉ rest.map Document.page_content := by
      intro he
      exact h (by simp [he])
    rw [rrfPass]
    rw [ih (rank + 1) _ _ hrest]
    exact dictGet_dictSet_ne scores d.page_content c _ hd

theorem rrfState_get_both (k : ℚ) (vd bd : List Document) (c : String)
    (hv : c ∈ vd.map Document.page_content) :
    dictGet (rrfState k vd bd).1 c = some (rrfSum k 0 vd c + rrfSum k 0 bd c) := by
  have h1 : dictGet (rrfPass k vd 0 [] []).1 c = some (rrfSum k 0 vd c) := by
    have := rrfPass_scores_get k vd 0 [] [] c (Or.inl hv)
    simpa [dictGet] using this
  have h2 := rrfPass_scores_get k bd 0 (rrfPass k vd 0 [] []).1
    (rrfPass k vd 0 [] []).2 c (Or.inr (by rw [h1]; rfl))
  rw [rrfState, h2, h1]
  rfl

theorem rrfState_get_bm25_only (k : ℚ) (vd bd : List Document) (c : String)
    (hv : c ∉ vd.map Document.page_content)
    (hb : c ∈ bd.map Document.page_content) :
    dictGet (rrfState k vd bd).1 c = some (rrfSum k 0 bd c) := by
  have h1 : dictGet (rrfPass k vd 0 [] []).1 c = none := by
    rw [rrfPass_scores_skip k vd 0 [] [] c hv]
    rfl
  have h2 := rrfPass_scores_get k bd 0 (rrfPass k vd 0 [] []).1
    (rrfPass k vd 0 [] []).2 c (Or.inl hb)
  rw [rrfState, h2, h1]
  simp

/-- C2: the fused score computed by `hybrid_search` (via `_rrf_rerank` with
k = 60) for a fragment — identified by content hash, modelled by its
`page_content` — appearing once at 1-based rank `v1.length + 1` in the vector
list and once at 1-based rank `b1.length + 1` in the lexical list is
`1/(60 + r1) + 1/(60 + r2)`; a fragment present in only one of the two lists
gets only that list's term. The score is read off the `doc_scores` dictionary
(`rrfState`), which is the value `_rrf_rerank` sorts by and stores into the
returned documents' `rrf_score` metadata. -/
theorem rrf_fused_score_law :
    (∀ (v1 v2 b1 b2 : List Document) (dv db : Document) (c : String),
      dv.page_content = c → db.page_content = c →
      c ∉ (v1 ++ v2).map Document.page_content →
      c ∉ (b1 ++ b2).map Document.page_content →
      dictGet (rrfState 60 (v1 ++ dv :: v2) (b1 ++ db :: b2)).1 c =
        some (1 / (60 + (v1.length : ℚ) + 1) + 1 / (60 + (b1.length : ℚ) + 1))) ∧
    (∀ (v1 v2 bd : List Document) (dv : Document) (c : String),
      dv.page_content = c →
      c ∉ (v1 ++ v2).map Document.page_content →
      c ∉ bd.map Document.page_content →
      dictGet (rrfState 60 (v1 ++ dv :: v2) bd).1 c =
        some (1 / (60 + (v1.length : ℚ) + 1))) ∧
    (∀ (vd b1 b2 : List Document) (db : Document) (c : String),
      db.page_content = c →
      c ∉ vd.map Document.page_content →
      c ∉ (b1 ++ b2).map Document.page_content →
      dictGet (rrfState 60 vd (b1 ++ db :: b2)).1 c =
        some (1 / (60 + (b1.length : ℚ) + 1))) := by
  refine ⟨?_, ?_, ?_⟩
  · intro v1 v2 b1 b2 dv db c hdv hdb hvout hbout
    have hv : c ∈ (v1 ++ dv :: v2).map Document.page_content :=
      List.mem_map.mpr ⟨dv, by simp, hdv⟩
    rw [rrfState_get_both 60 _ _ c hv,
      rrfSum_single 60 v1 v2 dv c hdv hvout,
      rrfSum_single 60 b1 b2 db c hdb hbout]
  · intro v1 v2 bd dv c hdv hvout hbout
    have hv : c ∈ (v1 ++ dv :: v2).map Document.page_content :=
      List.mem_map.mpr ⟨dv, by simp, hdv⟩
    rw [rrfState_get_both 60 _ _ c hv,
      rrfSum_single 60 v1 v2 dv c hdv hvout,
      rrfSum_not_mem 60 0 bd c hbout]
    norm_num
  · intro vd b1 b2 db c hdb hvout hbout
    have hb : c ∈ (b1 ++ db :: b2).map Document.page_content :=
      List.mem_map.mpr ⟨db, by simp, hdb⟩
    rw [rrfState_get_bm25_only 60 _ _ c hvout hb,
      rrfSum_single 60 b1 b2 db c hdb hbout]

/-- Witness for `rrf_fused_score_law`: content "a" sits at rank 1 of the
vector list and rank 2 of the lexical list, so its fused score is
`1/(60+1) + 1/(60+2)`. -/
theorem rrf_fused_score_law_witness :
    dictGet (rrfState 60 ([] ++ ⟨"a", []⟩ :: []) ([⟨"x", []⟩] ++ ⟨"a", []⟩ :: [])).1 "a" =
      some (1 / (60 + (([] : List Document).length : ℚ) + 1) +
        1 / (60 + (([⟨"x", []⟩] : List Document).length : ℚ) + 1)) :=
  rrf_fused_score_law.1 [] [] [⟨"x", []⟩] [] ⟨"a", []⟩ ⟨"a", []⟩ "a"
    rfl rfl (by decide) (by decide)

/-- Deduplication keeping the first occurrence: the order in which CPython's
insertion-ordered `dict` first sees each key. -/
def firstSeen {α : Type} [DecidableEq α] (l : List α) : List α :=
  l.foldl (fun acc x => if x ∈ acc then acc else acc ++ [x]) []

theorem rrfPass_keys (k : ℚ) (docs : List Document) (rank : Nat)
    (scores : List (String × ℚ)) (objs : List (String × Document)) :
    ((rrfPass k docs rank scores objs).1).map Prod.fst =
      (docs.map Document.page_content).foldl
        (fun acc x => if x ∈ acc then acc else acc ++ [x]) (scores.map Prod.fst) := by
  induction docs generalizing rank scores objs with
  | nil => rfl
  | cons d rest ih =>
    rw [rrfPass]
    rw [ih]
    simp only [List.map_cons, List.foldl_cons]
    rw [dictSet_keys]

theorem rrfState_keys (k : ℚ) (vd bd : List Document) :
    ((rrfState k vd bd).1).map Prod.fst =
      firstSeen ((vd ++ bd).map Document.page_content) := by
  rw [rrfState, rrfPass_keys, rrfPass_keys]
  simp [firstSeen, List.map_append, List.foldl_append, dictGet]

/-- C8: hybrid search is deterministic and breaks score ties stably.
(1) The embedded `hybrid_search` is a pure function of the two engines'
outcomes, so two runs on the same inputs give the same output order.
(2) For every score value `s`, the equal-score entries of the sorted
`doc_scores` dictionary appear in exactly the dictionary's insertion order —
Python's `sorted(..., reverse=True)` is stable.
(3) The `doc_scores` insertion order is first-seen order with the vector list
scanned before the lexical list. -/
theorem hybrid_search_deterministic :
    (∀ (vCall bPub bPriv : Except PyError (List Document)) (top_k : Nat),
      hybrid_search vCall bPub bPriv top_k = hybrid_search vCall bPub bPriv top_k) ∧
    (∀ (vd bd : List Document) (s : ℚ),
      (sortDesc (rrfState 60 vd bd).1).filter (fun p => p.2 = s) =
        ((rrfState 60 vd bd).1).filter (fun p => p.2 = s)) ∧
    (∀ (vd bd : List Document),
      ((rrfState 60 vd bd).1).map Prod.fst =
        firstSeen ((vd ++ bd).map Document.page_content)) :=
  ⟨fun _ _ _ _ => rfl,
   fun vd bd s => sortDesc_filter_eq (rrfState 60 vd bd).1 s,
   fun vd bd => rrfState_keys 60 vd bd⟩

/-- C1 counterexample: with the vector engine raising and the lexical engine
succeeding with a nonempty list, `hybrid_search` returns the empty list — not
the fusion of the surviving engine's list (which would be nonempty); and when
both engines raise, it still returns the empty list rather than surfacing any
error (no `RetrievalError` exists in the repository). -/
theorem hybrid_search_failure_counterexample :
    hybrid_search (Except.error PyError.otherError) (Except.ok [⟨"a", []⟩])
      (Except.ok []) 5 = Except.ok [] ∧
    (rrf_rerank 60 [] [⟨"a", []⟩]).take 5 ≠ [] ∧
    hybrid_search (Except.error PyError.otherError) (Except.error PyError.otherError)
      (Except.error PyError.otherError) 5 = Except.ok [] := by
  refine ⟨rfl, ?_, rfl⟩
  decide

/-- C1 amended: if the vector engine raises any exception, `hybrid_search`
returns the empty list, regardless of the lexical engine (the failure is
logged, not propagated, but the lexical engine's results are discarded, not
fused); when the vector engine succeeds, a `TypeError` from the lexical
public call also yields the empty list, an `AttributeError` triggers the
private fallback call whose outcome decides the result (its exceptions
propagate raw), and any other lexical exception propagates raw; no
`RetrievalError` is ever surfaced — there is no such type in the code. -/
theorem hybrid_search_failure_handling :
    (∀ (e : PyError) (bPub bPriv : Except PyError (List Document)) (top_k : Nat),
      hybrid_search (Except.error e) bPub bPriv top_k = Except.ok []) ∧
    (∀ (vd : List Document) (bPriv : Except PyError (List Document)) (top_k : Nat),
      hybrid_search (Except.ok vd) (Except.error PyError.typeError) bPriv top_k =
        Except.ok []) ∧
    (∀ (vd : List Document) (e : PyError) (top_k : Nat),
      hybrid_search (Except.ok vd) (Except.error PyError.attrError)
        (Except.error e) top_k = Except.error e) ∧
    (∀ (vd bd : List Document) (bPriv : Except PyError (List Document)) (top_k : Nat),
      hybrid_search (Except.ok vd) (Except.ok bd) bPriv top_k =
        if vd.isEmpty && bd.isEmpty then Except.ok []
        else Except.ok ((rrf_rerank 60 vd bd).take top_k)) ∧
    (∀ (vd bd : List Document) (top_k : Nat),
      hybrid_search (Except.ok vd) (Except.error PyError.attrError)
        (Except.ok bd) top_k =
        if vd.isEmpty && bd.isEmpty then Except.ok []
        else Except.ok ((rrf_rerank 60 vd bd).take top_k)) :=
  ⟨fun _ _ _ _ => rfl, fun _ _ _ => rfl, fun _ _ _ => rfl,
   fun _ _ _ _ => rfl, fun _ _ _ => rfl⟩

/-- Heap-level scoring loop of `_rrf_rerank`: the documents held by the
module's stores (`self.vectorstore`'s docstore and `self.bm25_retriever`'s
document list, both aliasing `self.chunks` passed to `__init__`) are cells of
`store`, and an engine's result list is a list of references (indices) into
it, because langchain returns the stored `Document` objects themselves.
`doc_obj` therefore maps a content hash to an object reference. -/
def rrfPassRefs (k : ℚ) (store : List Document) (refs : List Nat) (rank : Nat)
    (scores : List (String × ℚ)) (objs : List (String × Nat)) :
    List (String × ℚ) × List (String × Nat) :=
  match refs with
  | [] => (scores, objs)
  | r :: rest =>
    let doc := store.getD r ⟨"", []⟩
    let docId := doc.page_content
    let objs1 := dictSet objs docId r
    let rrfScore : ℚ := 1 / (k + rank + 1)
    let scores1 := dictSet scores docId ((dictGet scores docId).getD 0 + rrfScore)
    rrfPassRefs k store rest (rank + 1) scores1 objs1

/-- Heap-level output loop of `_rrf_rerank`: for each id in the sorted score
list, `doc.metadata['rrf_score'] = final_score` writes through the reference
into the store, and the reference itself is appended to the result. -/
def rrfWriteRefs (objs : List (String × Nat)) :
    List (String × ℚ) → List Document → List Nat → List Document × List Nat
  | [], store, acc => (store, acc)
  | (docId, score) :: rest, store, acc =>
    match dictGet objs docId with
    | some r =>
      let doc := store.getD r ⟨"", []⟩
      rrfWriteRefs objs rest (store.set r (setRrfScore doc score)) (acc ++ [r])
    | none => rrfWriteRefs objs rest store acc

/-- Heap-level `_rrf_rerank`: returns the updated store and the list of
references the caller receives. -/
def rrfRerankRef (k : ℚ) (store : List Document) (vectorRefs bm25Refs : List Nat) :
    List Document × List Nat :=
  let p1 := rrfPassRefs k store vectorRefs 0 [] []
  let p2 := rrfPassRefs k store bm25Refs 0 p1.1 p1.2
  rrfWriteRefs p2.2 (sortDesc p2.1) store []

theorem dictGet_mem_values {α β : Type} [DecidableEq α]
    (d : List (α × β)) (k : α) (v : β) (h : dictGet d k = some v) :
    v ∈ d.map Prod.snd := by
  induction d with
  | nil => simp [dictGet] at h
  | cons p rest ih =>
    obtain ⟨a, b⟩ := p
    by_cases ha : a = k
    · simp [dictGet, ha] at h
      simp [h]
    · simp [dictGet, ha] at h
      simp [ih h]

theorem dictSet_values_cases {α β : Type} [DecidableEq α]
    (d : List (α × β)) (k : α) (v w : β) (h : w ∈ (dictSet d k v).map Prod.snd) :
    w = v ∨ w ∈ d.map Prod.snd := by
  induction d with
  | nil =>
    simp [dictSet] at h
    exact Or.inl h
  | cons p rest ih =>
    obtain ⟨a, b⟩ := p
    by_cases ha : a = k
    · have hstep : dictSet ((a, b) :: rest) k v = (a, v) :: rest := by
        simp [dictSet, ha]
      rw [hstep, List.map_cons] at h
      rcases List.mem_cons.mp h with h1 | h1
      · exact Or.inl h1
      · exact Or.inr (by rw [List.map_cons]; exact List.mem_cons_of_mem b h1)
    · have hstep : dictSet ((a, b) :: rest) k v = (a, b) :: dictSet rest k v := by
        simp [dictSet, ha]
      rw [hstep, List.map_cons] at h
      rcases List.mem_cons.mp h with h1 | h1
      · exact Or.inr (by rw [List.map_cons, h1]; exact List.mem_cons_self b _)
      · rcases ih h1 with h2 | h2
        · exact Or.inl h2
        · exact Or.inr (by rw [List.map_cons]; exact List.mem_cons_of_mem b h2)

theorem rrfPassRefs_objs_values (k : ℚ) (store : List Document) (refs : List Nat)
    (rank : Nat) (scores : List (String × ℚ)) (objs : List (String × Nat))
    (r : Nat) (h : r ∈ ((rrfPassRefs k store refs rank scores objs).2).map Prod.snd) :
    r ∈ refs ∨ r ∈ objs.map Prod.snd := by
  induction refs generalizing rank scores objs with
  | nil => exact Or.inr h
  | cons r0 rest ih =>
    rw [rrfPassRefs] at h
    rcases ih _ _ _ h with h2 | h2
    · exact Or.inl (List.mem_cons_of_mem r0 h2)
    · rcases dictSet_values_cases objs _ r0 r h2 with h3 | h3
      · exact Or.inl (h3 ▸ List.mem_cons_self r0 rest)
      · exact Or.inr h3

theorem rrfWriteRefs_out (objs : List (String × Nat)) (sorted : List (String × ℚ))
    (store : List Document) (acc : List Nat) (r : Nat)
    (h : r ∈ (rrfWriteRefs objs sorted store acc).2) :
    r ∈ acc ∨ r ∈ objs.map Prod.snd := by
  induction sorted generalizing store acc with
  | nil => exact Or.inl h
  | cons p rest ih =>
    obtain ⟨docId, score⟩ := p
    rw [rrfWriteRefs] at h
    cases hg : dictGet objs docId with
    | none =>
      rw [hg] at h
      exact ih _ _ h
    | some r0 =>
      rw [hg] at h
      rcases ih _ _ h with h2 | h2
      · rcases List.mem_append.mp h2 with h3 | h3
        · exact Or.inl h3
        · have : r = r0 := by simpa using h3
          exact Or.inr (this ▸ dictGet_mem_values objs docId r0 hg)
      · exact Or.inr h2

/-- C7 counterexample: a store holding one chunk with metadata
`{"category": "meat"}`; the vector engine returns that chunk (reference 0) and
the lexical engine returns nothing. After `hybrid_search`'s reranking the
store's document is no longer the original one — its metadata has gained
`rrf_score` — and the returned list is exactly the reference `0` into the
store, not a copy. -/
theorem rrf_rerank_mutation_counterexample :
    (rrfRerankRef 60 [⟨"beef", [("category", MetaVal.str "meat")]⟩] [0] []).1 ≠
      [⟨"beef", [("category", MetaVal.str "meat")]⟩] ∧
    (rrfRerankRef 60 [⟨"beef", [("category", MetaVal.str "meat")]⟩] [0] []).2 = [0] := by
  refine ⟨?_, ?_⟩ <;> decide

/-- C7 amended: `hybrid_search` communicates by reference, not by value: every
document it returns is one of the references handed back by the engines,
i.e. an alias of a document held by the module's stores, and the reranking
step writes `rrf_score` through those references, mutating the stored
chunks' metadata (shown here on a two-chunk store where both stored documents
change). -/
theorem rrf_rerank_aliasing :
    (∀ (k : ℚ) (store : List Document) (vrefs brefs : List Nat),
      ((rrfRerankRef k store vrefs brefs).2.all
        (fun r => (vrefs ++ brefs).contains r)) = true) ∧
    (rrfRerankRef 60 [⟨"beef", []⟩, ⟨"fish", []⟩] [0] [1]).1 =
      [⟨"beef", [("rrf_score", MetaVal.num (1 / 61))]⟩,
       ⟨"fish", [("rrf_score", MetaVal.num (1 / 61))]⟩] := by
  constructor
  · intro k store vrefs brefs
    rw [List.all_eq_true]
    intro r hr
    have hout := rrfWriteRefs_out
      (rrfPassRefs k store brefs 0 (rrfPassRefs k store vrefs 0 [] []).1
        (rrfPassRefs k store vrefs 0 [] []).2).2
      (sortDesc (rrfPassRefs k store brefs 0 (rrfPassRefs k store vrefs 0 [] []).1
        (rrfPassRefs k store vrefs 0 [] []).2).1) store [] r hr
    rcases hout with h | h
    · simp at h
    · rcases rrfPassRefs_objs_values k store brefs 0 _ _ r h with h2 | h2
      · simpa using Or.inr h2
      · rcases rrfPassRefs_objs_values k store vrefs 0 [] [] r h2 with h3 | h3
        · simpa using Or.inl h3
        · simp at h3
  · simp [rrfRerankRef, rrfPassRefs, rrfWriteRefs, sortDesc, insertDesc,
      dictGet, dictSet, setRrfScore, List.getD]
    norm_num

/-- Python `del d[key]` on an association list (keys are unique by
construction, so removing the first binding removes the binding). -/
def dictDel {α β : Type} [DecidableEq α] : List (α × β) → α → List (α × β)
  | [], _ => []
  | (k, v) :: rest, key => if k = key then rest else (k, v) :: dictDel rest key

/-- Split a character list into its maximal runs of non-whitespace characters,
Python's `str.split()` with no argument (empty runs are discarded). The
accumulator holds the current word reversed. -/
def splitWordsAux : List Char → List Char → List (List Char)
  | [], [] => []
  | [], acc => [acc.reverse]
  | c :: rest, acc =>
    if c.isWhitespace then
      (if acc = [] then splitWordsAux rest [] else acc.reverse :: splitWordsAux rest [])
    else splitWordsAux rest (c :: acc)

/-- The normalization of `CacheManager._generate_key`:
`" ".join(query.lower().strip().split())` — lower-case, split on whitespace
runs, re-join with single spaces. `.strip()` is subsumed by `.split()`
discarding empty runs. Lower-casing is per character (`Char.toLower`, ASCII
case like CPython's for the ASCII range; the repository's CJK text has no
case). Note: no punctuation is removed. -/
def normalizeQuery (query : String) : String :=
  String.intercalate " "
    ((splitWordsAux (query.data.map Char.toLower) []).map (fun w => String.mk w))

/-- `CacheManager._generate_key`: `f"{session_id}:{md5(normalized).hexdigest()}"`.
The MD5 hex digest is modelled by the normalized string itself: MD5 is a
fixed deterministic function of its input, injective absent collisions, and
the code uses the digest only as an opaque dictionary-key component, so key
equality is exactly equality of `(session_id, normalized query)`. -/
def cacheKey (session_id query : String) : String :=
  session_id ++ ":" ++ normalizeQuery query

/-- `CacheEntry` of `cache_manager.py` (fields in source order), plus a ghost
field `touch`: the logical time (operation counter) of this entry's last
`set` insertion or `get` hit. The source keeps this order implicitly as the
position in the `OrderedDict`; the ghost field only lets the LRU property be
stated, no operation branches on it. -/
structure CacheEntry where
  query : String
  answer : String
  created_at : Nat
  hit_count : Nat
  metadata : List (String × String)
  touch : Nat
deriving DecidableEq, Repr

/-- `CacheManager` state: `_cache` is the `OrderedDict` as a list in recency
order (head = least recently used, popped by `popitem(last=False)`; tail =
most recently used, where new and `move_to_end`ed entries go), plus the
configuration and a ghost logical clock counting operations. The statistics
counters are omitted (no claim mentions them). -/
structure CacheState where
  max_size : Nat
  ttl : Nat
  cache : List (String × CacheEntry)
  clock : Nat
deriving DecidableEq, Repr

/-- `CacheManager.__init__` with an empty table. -/
def cacheInit (max_size ttl : Nat) : CacheState :=
  ⟨max_size, ttl, [], 0⟩

/-- `CacheManager.get` (`cache_manager.py` lines 99-127): absent key is a
miss; an entry with `now - created_at > ttl` is deleted and is a miss; a hit
moves the entry to the most-recent end (`move_to_end`), increments its
`hit_count`, and returns the stored answer. -/
def cacheGet (st : CacheState) (session_id query : String) (now : Nat) :
    Option String × CacheState :=
  let key := cacheKey session_id query
  match dictGet st.cache key with
  | none => (none, { st with clock := st.clock + 1 })
  | some entry =>
    if now - entry.created_at > st.ttl then
      (none, { st with cache := dictDel st.cache key, clock := st.clock + 1 })
    else
      let entry1 := { entry with hit_count := entry.hit_count + 1, touch := st.clock }
      (some entry.answer,
        { st with cache := dictDel st.cache key ++ [(key, entry1)],
                  clock := st.clock + 1 })

/-- The table of `CacheManager.set` right after deleting any old binding for
the key and appending the fresh entry, before the LRU eviction loop. -/
def cacheInserted (st : CacheState) (session_id query answer : String)
    (metadata : List (String × String)) (now : Nat) : List (String × CacheEntry) :=
  let key := cacheKey session_id query
  (if (dictGet st.cache key).isSome then dictDel st.cache key else st.cache) ++
    [(key, ⟨query, answer, now, 0, metadata, st.clock⟩)]

/-- The `while len(self._cache) > self.max_size: self._cache.popitem(last=False)`
loop of `CacheManager.set`: pop from the least-recent end until within bound. -/
def evictLoop (max_size : Nat) : List (String × CacheEntry) → List (String × CacheEntry)
  | [] => []
  | x :: rest =>
    if (x :: rest).length > max_size then evictLoop max_size rest else x :: rest

/-- `CacheManager.set` (lines 129-159). -/
def cacheSet (st : CacheState) (session_id query answer : String)
    (metadata : List (String × String)) (now : Nat) : CacheState :=
  { st with cache := evictLoop st.max_size (cacheInserted st session_id query answer metadata now),
            clock := st.clock + 1 }

/-- A public cache operation together with the wall-clock time at which it
runs (the source reads `time.time()`). -/
inductive CacheOp
  | set (session_id query answer : String) (metadata : List (String × String)) (now : Nat)
  | get (session_id query : String) (now : Nat)

def cacheStep (st : CacheState) : CacheOp → CacheState
  | .set sid q a m now => cacheSet st sid q a m now
  | .get sid q now => (cacheGet st sid q now).2

/-- The state reached from a fresh `CacheManager(max_size, ttl)` after a
sequence of `set`/`get` calls. -/
def cacheRun (max_size ttl : Nat) (ops : List CacheOp) : CacheState :=
  ops.foldl cacheStep (cacheInit max_size ttl)

theorem dictDel_sublist {α β : Type} [DecidableEq α] (d : List (α × β)) (key : α) :
    List.Sublist (dictDel d key) d := by
  induction d with
  | nil => simp [dictDel]
  | cons p rest ih =>
    obtain ⟨k, v⟩ := p
    by_cases hk : k = key
    · have hstep : dictDel ((k, v) :: rest) key = rest := by
        simp [dictDel, hk]
      rw [hstep]
      exact List.sublist_cons_self (k, v) rest
    · simpa [dictDel, hk] using List.Sublist.cons₂ (k, v) ih

theorem dictDel_length_of_some {α β : Type} [DecidableEq α]
    (d : List (α × β)) (key : α) (h : (dictGet d key).isSome) :
    (dictDel d key).length + 1 = d.length := by
  induction d with
  | nil => simp [dictGet] at h
  | cons p rest ih =>
    obtain ⟨k, v⟩ := p
    by_cases hk : k = key
    · simp [dictDel, hk]
    · simp [dictGet, hk] at h
      simp [dictDel, hk, ih h]

theorem evictLoop_eq_drop (max_size : Nat) (l : List (String × CacheEntry)) :
    evictLoop max_size l = l.drop (l.length - max_size) := by
  induction l with
  | nil => simp [evictLoop]
  | cons x rest ih =>
    by_cases h : (x :: rest).length > max_size
    · have hlen : (x :: rest).length - max_size = (rest.length - max_size) + 1 := by
        simp only [List.length_cons] at h ⊢
        omega
      rw [evictLoop, if_pos h, ih, hlen, List.drop_succ_cons]
    · have hlen : (x :: rest).length - max_size = 0 := by
        simp only [List.length_cons] at h ⊢
        omega
      rw [evictLoop, if_neg h, hlen, List.drop_zero]

/-- Ghost invariant tying the `OrderedDict` order to recency: entries appear
in strictly increasing order of last touch (insertion or hit), and all
touches are in the past. -/
def CacheInv (st : CacheState) : Prop :=
  st.cache.Pairwise (fun a b => a.2.touch < b.2.touch) ∧
  ∀ p ∈ st.cache, p.2.touch < st.clock

theorem cacheInserted_pairwise (st : CacheState) (sid q a : String)
    (m : List (String × String)) (now : Nat) (hinv : CacheInv st) :
    (cacheInserted st sid q a m now).Pairwise (fun p1 p2 => p1.2.touch < p2.2.touch) := by
  obtain ⟨hpw, hclk⟩ := hinv
  rw [cacheInserted]
  rw [List.pairwise_append]
  refine ⟨?_, List.pairwise_singleton _ _, ?_⟩
  · by_cases hmem : (dictGet st.cache (cacheKey sid q)).isSome
    · simpa [hmem] using hpw.sublist (dictDel_sublist st.cache (cacheKey sid q))
    · simpa [hmem] using hpw
  · intro p1 hp1 p2 hp2
    have hp1c : p1 ∈ st.cache := by
      by_cases hmem : (dictGet st.cache (cacheKey sid q)).isSome
      · simp [hmem] at hp1
        exact (dictDel_sublist st.cache (cacheKey sid q)).subset hp1
      · simpa [hmem] using hp1
    have hp2e : p2 = (cacheKey sid q, ⟨q, a, now, 0, m, st.clock⟩) := by
      simpa using hp2
    rw [hp2e]
    exact hclk p1 hp1c

theorem cacheStep_inv (st : CacheState) (op : CacheOp) (hinv : CacheInv st) :
    CacheInv (cacheStep st op) := by
  obtain ⟨hpw, hclk⟩ := hinv
  cases op with
  | set sid q a m now =>
    constructor
    · exact (cacheInserted_pairwise st sid q a m now ⟨hpw, hclk⟩).sublist
        (by simp only [cacheStep, cacheSet, evictLoop_eq_drop]
            exact List.drop_sublist _ _)
    · intro p hp
      have hp2 : p ∈ cacheInserted st sid q a m now := by
        have := (List.drop_sublist
          ((cacheInserted st sid q a m now).length - st.max_size)
          (cacheInserted st sid q a m now)).subset
        apply this
        simpa [cacheStep, cacheSet, evictLoop_eq_drop] using hp
      rw [cacheInserted] at hp2
      rcases List.mem_append.mp hp2 with h1 | h1
      · have hpc : p ∈ st.cache := by
          by_cases hmem : (dictGet st.cache (cacheKey sid q)).isSome
          · simp [hmem] at h1
            exact (dictDel_sublist st.cache (cacheKey sid q)).subset h1
          · simpa [hmem] using h1
        have := hclk p hpc
        simp [cacheStep, cacheSet]
        omega
      · have hpe : p = (cacheKey sid q, ⟨q, a, now, 0, m, st.clock⟩) := by
          simpa using h1
        rw [hpe]
        simp [cacheStep, cacheSet]
  | get sid q now =>
    rw [cacheStep, cacheGet]
    cases hg : dictGet st.cache (cacheKey sid q) with
    | none =>
      refine ⟨by simpa using hpw, ?_⟩
      intro p hp
      have := hclk p (by simpa using hp)
      simp
      omega
    | some entry =>
      by_cases hexp : now - entry.created_at > st.ttl
      · simp only [hexp, if_pos]
        refine ⟨hpw.sublist (dictDel_sublist st.cache (cacheKey sid q)), ?_⟩
        intro p hp
        have hpc : p ∈ st.cache :=
          (dictDel_sublist st.cache (cacheKey sid q)).subset (by simpa using hp)
        have := hclk p hpc
        simp
        omega
      · simp only [hexp, if_neg, if_false]
        constructor
        · simp only []
          rw [List.pairwise_append]
          refine ⟨hpw.sublist (dictDel_sublist st.cache (cacheKey sid q)),
            List.pairwise_singleton _ _, ?_⟩
          intro p1 hp1 p2 hp2
          have hp1c : p1 ∈ st.cache :=
            (dictDel_sublist st.cache (cacheKey sid q)).subset hp1
          have hp2e : p2.2.touch = st.clock := by
            have : p2 = (cacheKey sid q,
                { entry with hit_count := entry.hit_count + 1, touch := st.clock }) := by
              simpa using hp2
            rw [this]
          rw [hp2e]
          exact hclk p1 hp1c
        · intro p hp
          simp only [List.mem_append] at hp
          rcases hp with h1 | h1
          · have := hclk p
              ((dictDel_sublist st.cache (cacheKey sid q)).subset (by simpa using h1))
            simp
            omega
          · have : p = (cacheKey sid q,
                { entry with hit_count := entry.hit_count + 1, touch := st.clock }) := by
              simpa using h1
            rw [this]
            simp

theorem cacheStep_max_size (st : CacheState) (op : CacheOp) :
    (cacheStep st op).max_size = st.max_size := by
  cases op with
  | set sid q a m now => rfl
  | get sid q now =>
    rw [cacheStep, cacheGet]
    cases hg : dictGet st.cache (cacheKey sid q) with
    | none => rfl
    | some entry =>
      by_cases hexp : now - entry.created_at > st.ttl
      · simp only [hexp, if_pos]
      · simp only [hexp, if_neg, if_false]

theorem cacheStep_size (st : CacheState) (op : CacheOp)
    (h : st.cache.length ≤ st.max_size) :
    (cacheStep st op).cache.length ≤ (cacheStep st op).max_size := by
  cases op with
  | set sid q a m now =>
    simp only [cacheStep, cacheSet, evictLoop_eq_drop, List.length_drop]
    omega
  | get sid q now =>
    rw [cacheStep, cacheGet]
    cases hg : dictGet st.cache (cacheKey sid q) with
    | none => simpa using h
    | some entry =>
      by_cases hexp : now - entry.created_at > st.ttl
      · simp only [hexp, if_pos]
        have := (dictDel_sublist st.cache (cacheKey sid q)).length_le
        simp
        omega
      · simp only [hexp, if_neg, if_false]
        have hlen := dictDel_length_of_some st.cache (cacheKey sid q) (by rw [hg]; rfl)
        simp
        omega

theorem cacheRun_inv (max_size ttl : Nat) (ops : List CacheOp) :
    CacheInv (cacheRun max_size ttl ops) ∧
    (cacheRun max_size ttl ops).cache.length ≤ (cacheRun max_size ttl ops).max_size ∧
    (cacheRun max_size ttl ops).max_size = max_size := by
  suffices hgen : ∀ (st : CacheState), CacheInv st →
      st.cache.length ≤ st.max_size →
      CacheInv (ops.foldl cacheStep st) ∧
      (ops.foldl cacheStep st).cache.length ≤ (ops.foldl cacheStep st).max_size ∧
      (ops.foldl cacheStep st).max_size = st.max_size by
    have h := hgen (cacheInit max_size ttl)
      ⟨List.Pairwise.nil, by intro p hp; simp [cacheInit] at hp⟩
      (by simp [cacheInit])
    exact ⟨h.1, h.2.1, h.2.2⟩
  induction ops with
  | nil => exact fun st h1 h2 => ⟨h1, h2, rfl⟩
  | cons op rest ih =>
    intro st h1 h2
    have h := ih (cacheStep st op) (cacheStep_inv st op h1) (cacheStep_size st op h2)
    refine ⟨by simpa [List.foldl_cons] using h.1, by simpa [List.foldl_cons] using h.2.1, ?_⟩
    rw [List.foldl_cons, h.2.2, cacheStep_max_size]

/-- C3: after any finite sequence of `set`/`get` operations on a fresh
`CacheManager`, the table never holds more than `max_size` entries; and on
any further `set`, the new table is the inserted table `cacheInserted ...`
with its front `(length - max_size)` entries popped one at a time, where the
inserted table is strictly ordered by last touch (ghost time of last `set`
insertion or `get` hit) — so each single eviction removes exactly the entry
least recently used among the entries current at that moment. -/
theorem cache_lru_eviction :
    (∀ (max_size ttl : Nat) (ops : List CacheOp),
      (cacheRun max_size ttl ops).cache.length ≤ max_size) ∧
    (∀ (max_size ttl : Nat) (ops : List CacheOp) (sid q a : String)
      (m : List (String × String)) (now : Nat),
      (cacheStep (cacheRun max_size ttl ops) (CacheOp.set sid q a m now)).cache =
        (cacheInserted (cacheRun max_size ttl ops) sid q a m now).drop
          ((cacheInserted (cacheRun max_size ttl ops) sid q a m now).length - max_size) ∧
      (cacheInserted (cacheRun max_size ttl ops) sid q a m now).Pairwise
        (fun p1 p2 => p1.2.touch < p2.2.touch)) := by
  constructor
  · intro max_size ttl ops
    have h := cacheRun_inv max_size ttl ops
    rw [h.2.2] at h
    exact h.2.1
  · intro max_size ttl ops sid q a m now
    have h := cacheRun_inv max_size ttl ops
    constructor
    · simp only [cacheStep, cacheSet, evictLoop_eq_drop]
      rw [h.2.2]
    · exact cacheInserted_pairwise _ sid q a m now h.1

/-- C9 counterexample: `"how to"` and `"how to?"` differ only by trailing
punctuation, yet `_generate_key` produces different keys for them (the
normalization lower-cases and collapses whitespace but does not strip
punctuation), and after `set("s1", "how to", "ans")` a `get("s1", "how to?")`
is a miss, not a hit. -/
theorem cache_key_punctuation_counterexample :
    cacheKey "s1" "how to" ≠ cacheKey "s1" "how to?" ∧
    (cacheGet (cacheSet (cacheInit 10 3600) "s1" "how to" "ans" [] 0)
      "s1" "how to?" 0).1 = none := by
  refine ⟨?_, ?_⟩ <;> decide

/-- C9 amended: the cache-key normalization is case folding and whitespace
collapsing only. Two questions with the same normalized form produce the same
key within a session, so after `set(s, q, a)` a `get(s, q')` with
`normalize(q) = normalize(q')` returns `a`; but punctuation is not stripped,
so a question differing from the cached one only by trailing punctuation has
a different normalized form, hence a different key and a cache miss. -/
theorem cache_key_normalization :
    (∀ (sid q q' a : String) (m : List (String × String)) (now max_size ttl : Nat),
      1 ≤ max_size →
      normalizeQuery q = normalizeQuery q' →
      (cacheGet (cacheSet (cacheInit max_size ttl) sid q a m now) sid q' now).1 =
        some a) ∧
    normalizeQuery " How   TO " = normalizeQuery "how to" ∧
    normalizeQuery "how to" ≠ normalizeQuery "how to?" := by
  refine ⟨?_, by decide, by decide⟩
  intro sid q q' a m now max_size ttl hms hnorm
  have hkey : cacheKey sid q' = cacheKey sid q := by
    rw [cacheKey, cacheKey, hnorm]
  have hlen : ¬ ([(cacheKey sid q,
      (⟨q, a, now, 0, m, 0⟩ : CacheEntry))].length > max_size) := by
    simp only [List.length_singleton]
    omega
  have hms0 : ¬ max_size = 0 := by omega
  simp [cacheGet, cacheSet, cacheInserted, cacheInit, evictLoop, dictGet,
    hkey, hlen, hms0, Nat.sub_self]

/-- Witness for `cache_key_normalization`: a set with `" How   TO "` followed
by a get with `"how to"` in the same session is a hit returning the cached
answer. -/
theorem cache_key_normalization_witness :
    (cacheGet (cacheSet (cacheInit 10 3600) "s1" " How   TO " "ans" [] 0)
      "s1" "how to" 0).1 = some "ans" :=
  cache_key_normalization.1 "s1" " How   TO " "how to" "ans" [] 0 10 3600
    (by decide) (by decide)

/-- `Message` of `session_manager.py` (timestamps as `Nat`). -/
structure Message where
  role : String
  content : String
  timestamp : Nat
  metadata : List (String × String)
deriving DecidableEq, Repr

/-- The `while len(session.messages) > self.max_history * 2` trimming loop of
`SessionManager.add_message` (lines 220-222): each iteration performs two
`pop(0)` calls, dropping the two oldest messages; `pop(0)` on an emptied list
would raise `IndexError`, modelled as `none` (reachable only when
`max_history = 0`). -/
def trimLoop (max_history : Nat) : List Message → Option (List Message)
  | [] => some []
  | [m] => if 1 > max_history * 2 then none else some [m]
  | m1 :: m2 :: rest =>
    if rest.length + 2 > max_history * 2 then trimLoop max_history rest
    else some (m1 :: m2 :: rest)

/-- The message-list effect of `SessionManager.add_message` on a live session
(`session_manager.py` lines 181-225): append the new message, then trim head
pairs while over the bound. Session lookup, `updated_at` refreshing and the
boolean return value are outside this claim's frame. -/
def addMessageMsgs (max_history : Nat) (msgs : List Message) (m : Message) :
    Option (List Message) :=
  trimLoop max_history (msgs ++ [m])

/-- The messages of a session after a sequence of `add_message` calls
starting from a freshly created (empty) session. -/
def addAll (max_history : Nat) (new : List Message) : Option (List Message) :=
  new.foldlM (addMessageMsgs max_history) []

theorem trimLoop_spec (max_history : Nat) (h1 : 1 ≤ max_history) :
    ∀ (msgs : List Message), ∃ t, trimLoop max_history msgs = some (msgs.drop (2 * t)) ∧
      (msgs.drop (2 * t)).length ≤ max_history * 2 := by
  suffices hgen : ∀ (n : Nat) (msgs : List Message), msgs.length ≤ n →
      ∃ t, trimLoop max_history msgs = some (msgs.drop (2 * t)) ∧
        (msgs.drop (2 * t)).length ≤ max_history * 2 by
    exact fun msgs => hgen msgs.length msgs le_rfl
  intro n
  induction n with
  | zero =>
    intro msgs hlen
    have : msgs = [] := List.length_eq_zero.mp (Nat.le_zero.mp hlen)
    subst this
    exact ⟨0, rfl, by simp⟩
  | succ n ih =>
    intro msgs hlen
    match msgs with
    | [] => exact ⟨0, rfl, by simp⟩
    | [m] =>
      have hb : ¬ (1 > max_history * 2) := by omega
      exact ⟨0, by simp [trimLoop, hb], by simp; omega⟩
    | m1 :: m2 :: rest =>
      by_cases hb : rest.length + 2 > max_history * 2
      · have hrest : rest.length ≤ n := by
          simp only [List.length_cons] at hlen
          omega
        obtain ⟨t, ht1, ht2⟩ := ih rest hrest
        refine ⟨t + 1, ?_, ?_⟩
        · have hdrop : (m1 :: m2 :: rest).drop (2 * (t + 1)) = rest.drop (2 * t) := by
            have : 2 * (t + 1) = (2 * t) + 1 + 1 := by omega
            rw [this]
            rfl
          rw [trimLoop, if_pos hb, ht1, hdrop]
        · have hdrop : (m1 :: m2 :: rest).drop (2 * (t + 1)) = rest.drop (2 * t) := by
            have : 2 * (t + 1) = (2 * t) + 1 + 1 := by omega
            rw [this]
            rfl
          rw [hdrop]
          exact ht2
      · refine ⟨0, by rw [trimLoop, if_neg hb]; rfl, ?_⟩
        simp only [Nat.mul_zero, List.drop_zero, List.length_cons]
        omega

theorem addAll_bounded (max_history : Nat) (h1 : 1 ≤ max_history)
    (new : List Message) (msgs : List Message) :
    ∃ final, new.foldlM (addMessageMsgs max_history) msgs = some final ∧
      (final.length ≤ max_history * 2 ∨ final = msgs) := by
  induction new generalizing msgs with
  | nil => exact ⟨msgs, rfl, Or.inr rfl⟩
  | cons m rest ih =>
    obtain ⟨t, ht1, ht2⟩ := trimLoop_spec max_history h1 (msgs ++ [m])
    obtain ⟨final, hf1, hf2⟩ := ih ((msgs ++ [m]).drop (2 * t))
    refine ⟨final, ?_, ?_⟩
    · rw [List.foldlM_cons]
      rw [addMessageMsgs, ht1]
      exact hf1
    · rcases hf2 with h | h
      · exact Or.inl h
      · exact Or.inl (h ▸ ht2)

/-- C4: with `max_history ≥ 1`, a session's message list never exceeds
`2 × max_history` entries after any number of `add_message` calls on a fresh
session, and each `add_message` trims, if at all, by removing whole head
pairs (the `2 × t` oldest messages for some number `t` of loop iterations)
until the bound is met — never from the middle or the tail. -/
theorem session_history_bound (max_history : Nat) (h1 : 1 ≤ max_history) :
    (∀ (new : List Message), ∃ final, addAll max_history new = some final ∧
      final.length ≤ max_history * 2) ∧
    (∀ (msgs : List Message) (m : Message),
      ∃ t, addMessageMsgs max_history msgs m = some ((msgs ++ [m]).drop (2 * t)) ∧
        ((msgs ++ [m]).drop (2 * t)).length ≤ max_history * 2) := by
  constructor
  · intro new
    obtain ⟨final, hf1, hf2⟩ := addAll_bounded max_history h1 new []
    refine ⟨final, hf1, ?_⟩
    rcases hf2 with h | h
    · exact h
    · rw [h]
      simp
  · intro msgs m
    exact trimLoop_spec max_history h1 (msgs ++ [m])

/-- Witness for `session_history_bound` at `max_history = 1`: three messages
added to a fresh session leave at most two stored. -/
theorem session_history_bound_witness :
    ∃ final, addAll 1 [⟨"user", "A", 0, []⟩, ⟨"assistant", "B", 1, []⟩,
      ⟨"user", "C", 2, []⟩] = some final ∧ final.length ≤ 1 * 2 :=
  (session_history_bound 1 (by decide)).1
    [⟨"user", "A", 0, []⟩, ⟨"assistant", "B", 1, []⟩, ⟨"user", "C", 2, []⟩]

/-- `SessionManager.get_context` restricted to a live session's message list
(`session_manager.py` lines 227-264): an empty session renders to `""`;
otherwise, when `include_current` is false and the last message's role is
`"user"`, that trailing message is dropped; the remainder is windowed to the
last `context_window * 2` messages (`messages[-n:]`; the whole list when the
window is zero, as in Python); each message renders as
`"<role label>: <content>"` — `用户` for role `"user"`, `助手` otherwise —
joined by `"\n"` in chronological order. -/
def get_context (context_window : Nat) (include_current : Bool)
    (msgs : List Message) : String :=
  if msgs.isEmpty then ""
  else
    let messages :=
      if include_current = false ∧ (msgs.getLast?).map Message.role = some "user"
      then msgs.dropLast else msgs
    let recent_messages :=
      if context_window * 2 = 0 then messages
      else messages.drop (messages.length - context_window * 2)
    if recent_messages.isEmpty then ""
    else
      String.intercalate "\n"
        (recent_messages.map (fun msg =>
          (if msg.role = "user" then "用户" else "助手") ++ ": " ++ msg.content))

/-- C6: on a session holding `[user:"A", assistant:"B", user:"C"]` with
`context_window = 1`, `get_context` with `include_current = false` drops the
trailing unanswered user message and renders exactly `"用户: A\n助手: B"`. -/
theorem get_context_window :
    get_context 1 false [⟨"user", "A", 0, []⟩, ⟨"assistant", "B", 1, []⟩,
      ⟨"user", "C", 2, []⟩] = "用户: A\n助手: B" := by
  decide

/-- `SessionManager.get_messages` restricted to a live session
(`session_manager.py` lines 267-291): Python's `if limit:` applies the slice
`messages[-limit:]` only when `limit` is neither `None` nor `0`; each message
maps to its `(role, content)` pair. -/
def get_messages (msgs : List Message) (limit : Option Nat) :
    List (String × String) :=
  let messages :=
    match limit with
    | some n => if n ≠ 0 then msgs.drop (msgs.length - n) else msgs
    | none => msgs
  messages.map (fun msg => (msg.role, msg.content))

/-- C10: `get_messages` with `limit = 0` returns the entire message list,
exactly as `limit = None` does, because `if limit:` is falsy for `0` and the
slicing is skipped. -/
theorem get_messages_zero_limit (msgs : List Message) :
    get_messages msgs (some 0) = get_messages msgs none := rfl

/-- Python truthiness of `chunk.metadata.get("parent_id")` in
`if parent_id:`: `None` and the empty string are falsy (the repository's
parent ids are strings; a numeric value would be falsy iff zero). -/
def pyTruthy : Option MetaVal → Bool
  | none => false
  | some (.str s) => s ≠ ""
  | some (.num q) => q ≠ 0

/-- The linear scan of `self.documents` for the first document whose metadata
`parent_id` equals the chunk's parent id, with `break` on the first match
(`data_preparation.py` lines 341-345). -/
def findParent (documents : List Document) (pid : MetaVal) : Option Document :=
  documents.find? (fun doc => dictGet doc.metadata "parent_id" = some pid)

/-- `parent_relevance[parent_id] = parent_relevance.get(parent_id, 0) + 1`
(`data_preparation.py` line 339). -/
def relStep (rel : List (MetaVal × Nat)) (pid : MetaVal) : List (MetaVal × Nat) :=
  dictSet rel pid ((dictGet rel pid).getD 0 + 1)

/-- `if parent_id not in parent_doc_map:` search `self.documents`, caching the
parent only when found (`data_preparation.py` lines 340-345). -/
def mapStep (documents : List Document) (m : List (MetaVal × Document))
    (pid : MetaVal) : List (MetaVal × Document) :=
  if (dictGet m pid).isSome then m
  else
    match findParent documents pid with
    | some doc => dictSet m pid doc
    | none => m

/-- One iteration of the collection loop of
`DataPreparationModule.get_parent_documents` (lines 335-345): a chunk with a
truthy parent id updates the relevance counts and the parent cache. -/
def collectParent (documents : List Document)
    (st : List (MetaVal × Nat) × List (MetaVal × Document)) (chunk : Document) :
    List (MetaVal × Nat) × List (MetaVal × Document) :=
  let pid? := dictGet chunk.metadata "parent_id"
  if pyTruthy pid? then
    match pid? with
    | some pid => (relStep st.1 pid, mapStep documents st.2 pid)
    | none => st
  else st

/-- `DataPreparationModule.get_parent_documents` (`data_preparation.py`
lines 320-369): one pass builds `parent_relevance` (insertion-ordered counts)
and `parent_doc_map` (cached lookups); the ids are sorted by relevance
descending with Python's stable `sorted`; ids absent from `parent_doc_map`
(unknown parents) are skipped in the output. -/
def get_parent_documents (documents : List Document)
    (child_chunks : List Document) : List Document :=
  let st := child_chunks.foldl (collectParent documents) ([], [])
  let sorted_parent_ids := (sortDesc st.1).map Prod.fst
  sorted_parent_ids.filterMap (fun pid => dictGet st.2 pid)

/-- The truthy parent ids of the input fragments, in input order (used by the
spec-side formulation of C5). -/
def truthyParentIds (chunks : List Document) : List MetaVal :=
  chunks.filterMap (fun c =>
    let pid? := dictGet c.metadata "parent_id"
    if pyTruthy pid? then pid? else none)

/-- Spec-side formulation of C5 (`resolveParents` in the spec's words): the
distinct parent ids in first-appearance order, each paired with its relevance
(number of input fragments carrying it), stably sorted by relevance
descending, resolved against the loaded documents with unknown ids silently
skipped. -/
def resolveParentsSpec (documents : List Document)
    (chunks : List Document) : List Document :=
  ((sortDesc ((firstSeen (truthyParentIds chunks)).map
      (fun pid => (pid, (truthyParentIds chunks).count pid)))).map Prod.fst).filterMap
    (findParent documents)

theorem firstSeen_foldl_mem {α : Type} [DecidableEq α]
    (l : List α) (acc : List α) (x : α) :
    x ∈ l.foldl (fun acc y => if y ∈ acc then acc else acc ++ [y]) acc ↔
      x ∈ acc ∨ x ∈ l := by
  induction l generalizing acc with
  | nil => simp
  | cons y rest ih =>
    rw [List.foldl_cons, ih]
    by_cases hy : y ∈ acc
    · simp only [hy, if_pos]
      constructor
      · rintro (h | h)
        · exact Or.inl h
        · exact Or.inr (List.mem_cons_of_mem y h)
      · rintro (h | h)
        · exact Or.inl h
        · rcases List.mem_cons.mp h with rfl | h
          · exact Or.inl hy
          · exact Or.inr h
    · simp only [hy, if_neg, if_false, List.mem_append, List.mem_singleton]
      constructor
      · rintro ((h | h) | h)
        · exact Or.inl h
        · exact Or.inr (by simp [h])
        · exact Or.inr (List.mem_cons_of_mem y h)
      · rintro (h | h)
        · exact Or.inl (Or.inl h)
        · rcases List.mem_cons.mp h with rfl | h
          · exact Or.inl (Or.inr rfl)
          · exact Or.inr h

theorem firstSeen_mem {α : Type} [DecidableEq α] (l : List α) (x : α) :
    x ∈ firstSeen l ↔ x ∈ l := by
  rw [firstSeen, firstSeen_foldl_mem]
  simp

theorem firstSeen_foldl_nodup {α : Type} [DecidableEq α]
    (l : List α) (acc : List α) (h : acc.Nodup) :
    (l.foldl (fun acc y => if y ∈ acc then acc else acc ++ [y]) acc).Nodup := by
  induction l generalizing acc with
  | nil => simpa using h
  | cons y rest ih =>
    rw [List.foldl_cons]
    by_cases hy : y ∈ acc
    · simpa [hy] using ih acc h
    · rw [if_neg hy]
      refine ih (acc ++ [y]) ?_
      simpa [List.nodup_append, h] using hy

theorem firstSeen_nodup {α : Type} [DecidableEq α] (l : List α) :
    (firstSeen l).Nodup :=
  firstSeen_foldl_nodup l [] List.nodup_nil

theorem firstSeen_append_single {α : Type} [DecidableEq α] (l : List α) (x : α) :
    firstSeen (l ++ [x]) =
      if x ∈ l then firstSeen l else firstSeen l ++ [x] := by
  rw [firstSeen, List.foldl_append]
  rw [show (firstSeen l = l.foldl (fun acc y => if y ∈ acc then acc else acc ++ [y]) []) from rfl]
  simp only [List.foldl_cons, List.foldl_nil]
  by_cases hx : x ∈ l
  · simp [firstSeen_foldl_mem, hx]
  · simp [firstSeen_foldl_mem, hx]

/-- The relevance table as a function of the processed id list: distinct ids
in first-appearance order, each with its occurrence count. -/
def countsList {α : Type} [DecidableEq α] (l : List α) : List (α × Nat) :=
  (firstSeen l).map (fun p => (p, l.count p))

theorem dictGet_map_graph {α β : Type} [DecidableEq α]
    (keys : List α) (f : α → β) (x : α) :
    dictGet (keys.map (fun p => (p, f p))) x =
      if x ∈ keys then some (f x) else none := by
  induction keys with
  | nil => simp [dictGet]
  | cons k rest ih =>
    by_cases hk : k = x
    · subst hk
      simp [dictGet]
    · simp [dictGet, hk, ih, Ne.symm hk]

theorem dictSet_map_graph {α β : Type} [DecidableEq α]
    (keys : List α) (f : α → β) (x : α) (v : β)
    (hnd : keys.Nodup) (hx : x ∈ keys) :
    dictSet (keys.map (fun p => (p, f p))) x v =
      keys.map (fun p => (p, if p = x then v else f p)) := by
  induction keys with
  | nil => simp at hx
  | cons k rest ih =>
    by_cases hk : k = x
    · subst hk
      have hout : k ∉ rest := (List.nodup_cons.mp hnd).1
      simp only [List.map_cons, dictSet, if_pos rfl, eq_self_iff_true, if_true]
      congr 1
      apply List.map_congr_left
      intro p hp
      have : ¬ p = k := fun h => hout (h ▸ hp)
      simp [this]
    · have hx2 : x ∈ rest := by
        rcases List.mem_cons.mp hx with h | h
        · exact absurd h.symm hk
        · exact h
      simp only [List.map_cons, dictSet, hk, if_neg, if_false,
        ih (List.nodup_cons.mp hnd).2 hx2]

theorem dictSet_map_graph_not_mem {α β : Type} [DecidableEq α]
    (keys : List α) (f : α → β) (x : α) (v : β) (hx : x ∉ keys) :
    dictSet (keys.map (fun p => (p, f p))) x v =
      keys.map (fun p => (p, f p)) ++ [(x, v)] := by
  induction keys with
  | nil => simp [dictSet]
  | cons k rest ih =>
    have hk : ¬ k = x := fun h => hx (by simp [h])
    have hx2 : x ∉ rest := fun h => hx (List.mem_cons_of_mem k h)
    simp [dictSet, hk, ih hx2]

theorem countsList_append_single {α : Type} [DecidableEq α] (l : List α) (x : α) :
    countsList (l ++ [x]) =
      dictSet (countsList l) x ((dictGet (countsList l) x).getD 0 + 1) := by
  by_cases hx : x ∈ l
  · have hfs : x ∈ firstSeen l := (firstSeen_mem l x).mpr hx
    have hget : dictGet (countsList l) x = some (l.count x) := by
      rw [countsList, dictGet_map_graph, if_pos hfs]
    have hset : dictSet (countsList l) x (l.count x + 1) =
        (firstSeen l).map (fun p => (p, if p = x then l.count x + 1 else l.count p)) := by
      rw [countsList]
      exact dictSet_map_graph (firstSeen l) _ x _ (firstSeen_nodup l) hfs
    rw [hget, Option.getD_some, hset]
    rw [countsList, firstSeen_append_single, if_pos hx]
    apply List.map_congr_left
    intro p hp
    by_cases hpx : p = x
    · subst hpx
      simp [List.count_append]
    · simp [List.count_append, hpx, Ne.symm hpx]
  · have hfs : x ∉ firstSeen l := fun h => hx ((firstSeen_mem l x).mp h)
    have hget : dictGet (countsList l) x = none := by
      rw [countsList, dictGet_map_graph, if_neg hfs]
    rw [hget, Option.getD_none]
    rw [countsList, firstSeen_append_single, if_neg hx, List.map_append]
    have hset : dictSet (countsList l) x (0 + 1) =
        countsList l ++ [(x, 0 + 1)] := by
      rw [countsList]
      exact dictSet_map_graph_not_mem (firstSeen l) _ x _ hfs
    rw [hset, countsList]
    congr 1
    · apply List.map_congr_left
      intro p hp
      have hpx : ¬ p = x := fun h =>
        hx (h ▸ (firstSeen_mem l p).mp hp)
      simp [List.count_append, hpx, Ne.symm hpx]
    · simp [List.count_append, List.count_eq_zero_of_not_mem hx]

theorem collect_foldl_split (documents : List Document) (chunks : List Document)
    (r0 : List (MetaVal × Nat)) (m0 : List (MetaVal × Document)) :
    chunks.foldl (collectParent documents) (r0, m0) =
      ((truthyParentIds chunks).foldl relStep r0,
       (truthyParentIds chunks).foldl (mapStep documents) m0) := by
  induction chunks generalizing r0 m0 with
  | nil => rfl
  | cons c rest ih =>
    rw [List.foldl_cons]
    cases hp : dictGet c.metadata "parent_id" with
    | none =>
      have hstep : collectParent documents (r0, m0) c = (r0, m0) := by
        simp [collectParent, hp, pyTruthy]
      have htp : truthyParentIds (c :: rest) = truthyParentIds rest := by
        simp [truthyParentIds, List.filterMap_cons, hp, pyTruthy]
      rw [hstep, htp, ih]
    | some pid =>
      by_cases ht : pyTruthy (some pid)
      · have hstep : collectParent documents (r0, m0) c =
            (relStep r0 pid, mapStep documents m0 pid) := by
          simp [collectParent, hp, ht]
        have htp : truthyParentIds (c :: rest) = pid :: truthyParentIds rest := by
          simp [truthyParentIds, List.filterMap_cons, hp, ht]
        rw [hstep, htp, List.foldl_cons, List.foldl_cons, ih]
      · have hstep : collectParent documents (r0, m0) c = (r0, m0) := by
          simp [collectParent, hp, ht]
        have htp : truthyParentIds (c :: rest) = truthyParentIds rest := by
          simp [truthyParentIds, List.filterMap_cons, hp, ht]
        rw [hstep, htp, ih]

theorem relFold_eq_counts (l : List MetaVal) :
    l.foldl relStep [] = countsList l := by
  induction l using List.reverseRecOn with
  | nil => rfl
  | append_singleton l x ih =>
    rw [List.foldl_append, List.foldl_cons, List.foldl_nil, ih, relStep,
      countsList_append_single]

theorem mapFold_get (documents : List Document) (l : List MetaVal) (pid : MetaVal) :
    dictGet (l.foldl (mapStep documents) []) pid =
      if pid ∈ l then findParent documents pid else none := by
  induction l using List.reverseRecOn with
  | nil => simp [dictGet]
  | append_singleton l x ih =>
    rw [List.foldl_append, List.foldl_cons, List.foldl_nil]
    by_cases hpx : pid = x
    · subst hpx
      rw [mapStep]
      by_cases h1 : (dictGet (l.foldl (mapStep documents) []) pid).isSome
      · rw [if_pos h1]
        rw [ih] at h1 ⊢
        by_cases hmem : pid ∈ l
        · simp [hmem, List.mem_append]
        · rw [if_neg hmem] at h1
          simp at h1
      · rw [if_neg h1]
        rw [ih] at h1
        cases hf : findParent documents pid with
        | some doc =>
          rw [dictGet_dictSet_self]
          simp [List.mem_append, hf]
        | none =>
          rw [ih]
          by_cases hmem : pid ∈ l
          · simp [hmem, List.mem_append, hf]
          · simp [hmem, List.mem_append, hf]
    · have hkeep : dictGet (mapStep documents (l.foldl (mapStep documents) []) x) pid =
          dictGet (l.foldl (mapStep documents) []) pid := by
        rw [mapStep]
        by_cases h1 : (dictGet (l.foldl (mapStep documents) []) x).isSome
        · rw [if_pos h1]
        · rw [if_neg h1]
          cases hf : findParent documents x with
          | some doc => exact dictGet_dictSet_ne _ x pid doc (fun h => hpx h.symm)
          | none => rfl
      rw [hkeep, ih]
      have : (pid ∈ l ++ [x]) ↔ pid ∈ l := by
        simp [List.mem_append, hpx]
      by_cases hmem : pid ∈ l
      · simp [hmem, this]
      · simp [hmem, this]

theorem countsList_keys {α : Type} [DecidableEq α] (l : List α) :
    (countsList l).map Prod.fst = firstSeen l := by
  rw [countsList, List.map_map]
  exact List.map_id _

/-- C5: parent resolution. (1) For every input, `get_parent_documents` equals
the spec-side `resolveParentsSpec`: the deduplicated parents ordered by
relevance (number of input fragments whose parent id matches), descending,
ties broken by first-appearance order, with fragments whose parent id matches
no loaded document silently skipped (the embedded function is total — it can
never fail). (2) On the spec's example `[f1(parent=P1), f2(parent=P2),
f3(parent=P1)]` the result is `[P1, P2]`, and an extra fragment with an
unknown parent id leaves the result unchanged. -/
theorem parent_resolution :
    (∀ (documents child_chunks : List Document),
      get_parent_documents documents child_chunks =
        resolveParentsSpec documents child_chunks) ∧
    get_parent_documents
      [⟨"P1 full", [("parent_id", MetaVal.str "P1")]⟩,
       ⟨"P2 full", [("parent_id", MetaVal.str "P2")]⟩]
      [⟨"f1", [("parent_id", MetaVal.str "P1")]⟩,
       ⟨"f2", [("parent_id", MetaVal.str "P2")]⟩,
       ⟨"f3", [("parent_id", MetaVal.str "P1")]⟩] =
      [⟨"P1 full", [("parent_id", MetaVal.str "P1")]⟩,
       ⟨"P2 full", [("parent_id", MetaVal.str "P2")]⟩] ∧
    get_parent_documents
      [⟨"P1 full", [("parent_id", MetaVal.str "P1")]⟩,
       ⟨"P2 full", [("parent_id", MetaVal.str "P2")]⟩]
      [⟨"f1", [("parent_id", MetaVal.str "P1")]⟩,
       ⟨"f2", [("parent_id", MetaVal.str "P2")]⟩,
       ⟨"f3", [("parent_id", MetaVal.str "P1")]⟩,
       ⟨"f4", [("parent_id", MetaVal.str "P9")]⟩] =
      [⟨"P1 full", [("parent_id", MetaVal.str "P1")]⟩,
       ⟨"P2 full", [("parent_id", MetaVal.str "P2")]⟩] := by
  refine ⟨?_, by decide, by decide⟩
  intro documents chunks
  rw [get_parent_documents, resolveParentsSpec]
  rw [collect_foldl_split, relFold_eq_counts]
  apply List.filterMap_congr
  intro pid hpid
  rcases List.mem_map.mp hpid with ⟨pair, hpair, hfst⟩
  have hmem1 : pair ∈ countsList (truthyParentIds chunks) :=
    (sortDesc_perm _).mem_iff.mp hpair
  have hmem2 : pid ∈ firstSeen (truthyParentIds chunks) := by
    rw [← countsList_keys]
    exact hfst ▸ List.mem_map_of_mem Prod.fst hmem1
  have hmem3 : pid ∈ truthyParentIds chunks :=
    (firstSeen_mem _ pid).mp hmem2
  rw [mapFold_get, if_pos hmem3]

end CookRag
